import Mathlib

/-!
Verification of the notetui note repository and derived-index engine.

The definitions below are a shallow embedding of the Python sources
`src/notetui/notes.py` and `src/notetui/todolist.py` (plus the parts of the
Python standard library they call: `str.strip`/`lower`/`split`,
`Path.read_text`/`write_text` newline handling, `datetime.strftime`/`strptime`,
and `difflib.SequenceMatcher.ratio`).  Text is modelled as `List Char`
(Python `str`), the filesystem as a partial map from filenames to stored
byte strings, and floating-point similarity scores as exact rationals.
-/

/-! ## Characters and strings

Python string helpers used by the sources.  `str.strip()` strips whitespace;
we model the ASCII whitespace characters (the sources only ever produce
ASCII whitespace; further Unicode space code points are not modelled).
-/

abbrev Chars := List Char

def str (s : String) : Chars := s.data

def isPySpace (c : Char) : Bool :=
  c = ' ' || c = '\t' || c = '\n' || c = '\r' || c = '\x0b' || c = '\x0c'

/-- Python `str.lstrip()`. -/
def lstripW (cs : Chars) : Chars := cs.dropWhile isPySpace

/-- Python `str.rstrip()`. -/
def rstripW (cs : Chars) : Chars := (cs.reverse.dropWhile isPySpace).reverse

/-- Python `str.strip()`. -/
def stripW (cs : Chars) : Chars := rstripW (lstripW cs)

/-- Python `str.rstrip('#')`. -/
def rstripHash (cs : Chars) : Chars := (cs.reverse.dropWhile (· = '#')).reverse

/-- Python `str.lower()` (ASCII case folding; the sources compare ASCII). -/
def lowerL (cs : Chars) : Chars := cs.map Char.toLower

/-- Python `str.startswith(p)`: `hasPre p s` is true iff `p` is an initial
segment of `s`. -/
def hasPre : Chars → Chars → Bool
  | [], _ => true
  | _ :: _, [] => false
  | p :: ps, c :: cs => p = c && hasPre ps cs

/-- Python `str.endswith(p)`. -/
def hasSuf (p s : Chars) : Bool := hasPre p.reverse s.reverse

/-- Python `p in s` (substring containment). -/
def containsSub (p : Chars) : Chars → Bool
  | [] => hasPre p []
  | c :: cs => hasPre p (c :: cs) || containsSub p cs

/-- Python `str.split(sep)` for a one-character separator: splits at every
occurrence, keeping empty pieces; the split of `""` is `[""]`. -/
def splitOnC (sep : Char) : Chars → List Chars
  | [] => [[]]
  | c :: cs =>
    if c = sep then [] :: splitOnC sep cs
    else
      match splitOnC sep cs with
      | [] => [[c]]
      | l :: ls => (c :: l) :: ls

/-- Python `'\n'.join(lines)` (specialised to the separator the sources use). -/
def joinNl : List Chars → Chars
  | [] => []
  | [l] => l
  | l :: ls => l ++ '\n' :: joinNl ls

/-- Universal-newline decoding performed by `Path.read_text()` (Python text
mode with `newline=None`): every `"\r\n"` and every lone `'\r'` becomes
`'\n'`. -/
def univNL : Chars → Chars
  | [] => []
  | [c] => if c = '\r' then ['\n'] else [c]
  | c :: c2 :: cs =>
    if c = '\r' then
      if c2 = '\n' then '\n' :: univNL cs else '\n' :: univNL (c2 :: cs)
    else c :: univNL (c2 :: cs)

/-- Python `enumerate(xs, start=n)`. -/
def enumFrom {α : Type} : Nat → List α → List (Nat × α)
  | _, [] => []
  | n, x :: xs => (n, x) :: enumFrom (n + 1) xs

/-- Strict lexicographic comparison of Python strings by code point
(`str.__lt__`, used by `sorted` on paths within one directory). -/
def lexLtB : Chars → Chars → Bool
  | [], [] => false
  | [], _ :: _ => true
  | _ :: _, [] => false
  | a :: as_, b :: bs => if a = b then lexLtB as_ bs else a < b

/-! ## Calendar model

`datetime.date` facts used by the sources: proleptic Gregorian calendar,
`toordinal` (days since 0001-01-00), weekday with Monday = 0.
-/

structure DayKey where
  year : Nat
  month : Nat
  day : Nat
deriving DecidableEq

def isLeap (y : Nat) : Bool := y % 4 = 0 && (y % 100 ≠ 0 || y % 400 = 0)

def monthLengths (y : Nat) : List Nat :=
  [31, if isLeap y then 29 else 28, 31, 30, 31, 30, 31, 31, 30, 31, 30, 31]

def daysInMonth (y m : Nat) : Nat := (monthLengths y).getD (m - 1) 0

def daysInYear (y : Nat) : Nat := if isLeap y then 366 else 365

/-- Days strictly before January 1 of year `y` (year ≥ 1), proleptic
Gregorian. -/
def daysBeforeYear (y : Nat) : Nat :=
  365 * (y - 1) + (y - 1) / 4 + (y - 1) / 400 - (y - 1) / 100

/-- Days in year `y` strictly before the first of month `m`. -/
def daysBeforeMonth (y m : Nat) : Nat := ((monthLengths y).take (m - 1)).sum

/-- Python `datetime.date.toordinal()`: 0001-01-01 is day 1. -/
def toOrdinal (d : DayKey) : Nat :=
  daysBeforeYear d.year + daysBeforeMonth d.year d.month + d.day

/-- Python `datetime.date.weekday()`: Monday = 0 … Sunday = 6 (0001-01-01 was a
Monday). -/
def weekdayIdx (d : DayKey) : Nat := (toOrdinal d + 6) % 7

/-- A day key a `datetime` value can actually hold. -/
def validDay (d : DayKey) : Prop :=
  1 ≤ d.year ∧ 1 ≤ d.month ∧ d.month ≤ 12 ∧ 1 ≤ d.day ∧ d.day ≤ daysInMonth d.year d.month

instance (d : DayKey) : Decidable (validDay d) := by unfold validDay; infer_instance

/-- Calendar order on day keys: lexicographic on (year, month, day). -/
def dayLexLt (a b : DayKey) : Prop :=
  a.year < b.year ∨ (a.year = b.year ∧
    (a.month < b.month ∨ (a.month = b.month ∧ a.day < b.day)))

instance (a b : DayKey) : Decidable (dayLexLt a b) := by unfold dayLexLt; infer_instance

/-! ## Locale data

`notes.py` begins by calling `locale.setlocale(locale.LC_TIME, 'nb_NO.UTF-8')`
(falling back to `no_NO.UTF-8`, then to the process default, typically the
POSIX/C locale).  All `strftime`/`strptime` conversions of the sources go
through the resulting `LC_TIME` locale, so the embedding carries the locale
as an explicit parameter.  Month/day name tables are those of glibc: the C
locale and the `nb_NO` locale (current glibc localedata; note the trailing
periods of the Norwegian abbreviations).
-/

inductive TimeLocale
  | c
  | nb
deriving DecidableEq

def abmonTable : TimeLocale → List Chars
  | .c => [ str "Jan", str "Feb", str "Mar", str "Apr", str "May", str "Jun",
            str "Jul", str "Aug", str "Sep", str "Oct", str "Nov", str "Dec"]
  | .nb => [ str "jan.", str "feb.", str "mars", str "apr.", str "mai", str "juni",
             str "juli", str "aug.", str "sep.", str "okt.", str "nov.", str "des."]

def monTable : TimeLocale → List Chars
  | .c => [ str "January", str "February", str "March", str "April", str "May",
            str "June", str "July", str "August", str "September", str "October",
            str "November", str "December"]
  | .nb => [ str "januar", str "februar", str "mars", str "april", str "mai",
             str "juni", str "juli", str "august", str "september", str "oktober",
             str "november", str "desember"]

def weekdayTable : TimeLocale → List Chars
  | .c => [ str "Monday", str "Tuesday", str "Wednesday", str "Thursday",
            str "Friday", str "Saturday", str "Sunday"]
  | .nb => [ str "mandag", str "tirsdag", str "onsdag", str "torsdag",
             str "fredag", str "lørdag", str "søndag"]

/-- Python `strftime("%b")` for month `m` (1-based). -/
def abmon (loc : TimeLocale) (m : Nat) : Chars := (abmonTable loc).getD (m - 1) []

/-- Python `strftime("%B")` for month `m` (1-based). -/
def monthFull (loc : TimeLocale) (m : Nat) : Chars := (monTable loc).getD (m - 1) []

/-- Python `strftime("%A")` for weekday `w` (Monday = 0). -/
def weekdayName (loc : TimeLocale) (w : Nat) : Chars := (weekdayTable loc).getD w []

/-- Decimal digits of `n` (`Nat.toDigits 10`). -/
def natChars (n : Nat) : Chars := Nat.toDigits 10 n

/-- Python `strftime("%d")`: zero-padded to two digits. -/
def pad2 (n : Nat) : Chars := if n < 10 then '0' :: natChars n else natChars n

/-! ## Repository (`notes.py`, class `NoteManager`)

The filesystem is a partial map from filenames (within the notes directory)
to the stored text.  `read_text` applies universal-newline decoding to the
stored text; `write_text` on POSIX stores the text unchanged.
-/

def FS : Type := Chars → Option Chars

def emptyFS : FS := fun _ => none

/-- Source `NoteManager.get_note_path`: `date.strftime("%d-%b-%Y.md")`.  The `%b`
conversion uses the process `LC_TIME` locale set at module import. -/
def get_note_path (loc : TimeLocale) (d : DayKey) : Chars :=
  pad2 d.day ++ '-' :: abmon loc d.month ++ '-' :: natChars d.year ++ str ".md"

/-- Source `NoteManager.note_exists`. -/
def note_exists (loc : TimeLocale) (fs : FS) (d : DayKey) : Bool :=
  (fs (get_note_path loc d)).isSome

/-- Source `NoteManager._create_default_content`: `f"# {day_name}, {date_str}\n\n"`
with `day_name = strftime("%A")` and `date_str = strftime("%d %B %Y")`. -/
def create_default_content (loc : TimeLocale) (d : DayKey) : Chars :=
  str "# " ++ weekdayName loc (weekdayIdx d) ++ str ", " ++ pad2 d.day
    ++ ' ' :: monthFull loc d.month ++ ' ' :: natChars d.year ++ str "\n\n"

/-- Source `NoteManager.get_note_content`: read the file if it exists, otherwise
synthesize default content.  Returns the content together with the (never
modified) filesystem, making the absence of a write effect explicit. -/
def get_note_content (loc : TimeLocale) (fs : FS) (d : DayKey) : Chars × FS :=
  match fs (get_note_path loc d) with
  | some stored => (univNL stored, fs)
  | none => (create_default_content loc d, fs)

/-- Source `NoteManager.save_note_content`: `write_text(content)` (full overwrite;
on POSIX the stored bytes are exactly the given text). -/
def save_note_content (loc : TimeLocale) (fs : FS) (d : DayKey) (content : Chars) : FS :=
  fun name => if name = get_note_path loc d then some content else fs name

/-! ## Day-key parsing (`datetime.strptime(stem, "%d-%b-%Y")`)

`search_notes` parses filename stems with `strptime`.  Python's `_strptime`
matches `%d` as one or two digits, `%b` as a locale month abbreviation
(case-insensitively), `%Y` as exactly four digits, and the constructed
`datetime` validates the day against the month length.
-/

def digitVal (c : Char) : Nat := c.toNat - 48

/-- Value of an all-digit string (`none` if empty or not all digits). -/
def digitsVal? (cs : Chars) : Option Nat :=
  if cs ≠ [] ∧ ∀ c ∈ cs, c.isDigit = true then
    some (cs.foldl (fun acc c => 10 * acc + digitVal c) 0)
  else none

def monthsOneToTwelve : List Nat := [1, 2, 3, 4, 5, 6, 7, 8, 9, 10, 11, 12]

/-- Conversion `%b`: case-insensitive match against the locale's month abbreviations. -/
def monthFromAbbrev (loc : TimeLocale) (s : Chars) : Option Nat :=
  monthsOneToTwelve.find? (fun m => lowerL (abmon loc m) == lowerL s)

/-- Python `datetime.strptime(s, "%d-%b-%Y")`, `none` on `ValueError`. -/
def parseDayKey (loc : TimeLocale) (s : Chars) : Option DayKey :=
  match splitOnC '-' s with
  | [ds, ms, ys] =>
    match digitsVal? ds, monthFromAbbrev loc ms, digitsVal? ys with
    | some d, some m, some y =>
      if 1 ≤ d ∧ ds.length ≤ 2 ∧ ys.length = 4 ∧ 1 ≤ y ∧ d ≤ daysInMonth y m then
        some ⟨y, m, d⟩
      else none
    | _, _, _ => none
  | _ => none

/-! ## Task index (`todolist.py`, class `TodoList`) -/

/-- The tuple `(todo_text, filename, note_file, line_number)` appended by
`scan_notes` (the redundant `note_file` path is omitted: it is determined
by `filename`). -/
structure TodoTask where
  label : Chars
  dateStr : Chars
  line : Nat
deriving DecidableEq

/-- Python `content.split('\n')`. -/
def splitNl : Chars → List Chars := splitOnC '\n'

/-- Expression `line_stripped[2:].strip().rstrip('#').strip()` — the todo text of a
(stripped) `##` heading line. -/
def extractLabel (lineStripped : Chars) : Chars :=
  stripW (rstripHash (stripW (lineStripped.drop 2)))

/-- One iteration of the line loop of `TodoList.scan_notes`: the emitted
task, if any, for line `p.2` at 0-based index `p.1`. -/
def scanLine (stem : Chars) (p : Nat × Chars) : Option TodoTask :=
  let ls := stripW p.2
  if hasPre (str "##") ls && !hasPre (str "###") ls then
    let t := extractLabel ls
    if hasPre (str "~~") t && hasSuf (str "~~") t then none
    else if t.isEmpty then none
    else some ⟨t, stem, p.1⟩
  else none

/-- The per-file part of `TodoList.scan_notes`: tasks of one file's decoded
content, in line order (`enumerate(lines)`, 0-based). -/
def scanFile (stem : Chars) (content : Chars) : List TodoTask :=
  (enumFrom 0 (splitNl content)).filterMap (scanLine stem)

/-- Python `Path.glob("*.md")` membership: name ends in `.md`
(`pathlib.Path.glob` matches dot-initial/hidden entries too, unlike the
`glob` module). -/
def globMd (name : Chars) : Bool :=
  hasSuf (str ".md") name

/-- Python `Path.stem` for a name ending in `.md`: drop the final `.md`.
Per pathlib's suffix rule a dot at position 0 starts no suffix, so the bare
name `.md` is its own stem. -/
def stemOf (name : Chars) : Chars :=
  if 4 ≤ name.length then name.take (name.length - 3) else name

/-- The comparison `sorted(paths, reverse=True)` sorts by: paths within one
directory compare by filename, lexicographically by code point; the reverse
sort places `a` before `b` iff `a`'s name is not lexicographically smaller. -/
def fileGe (a b : Chars × Chars) : Prop := lexLtB a.1 b.1 = false

instance : DecidableRel fileGe := fun a b => by unfold fileGe; infer_instance

/-- Source `TodoList.scan_notes` over a directory given as a list of
(filename, stored text) pairs: glob `*.md`, sort filenames descending,
and scan each file's decoded content top to bottom.  (Files that raise on
read are skipped by the per-file `try/except`; the directory model presents
the readable files.) -/
def scan_notes (dir : List (Chars × Chars)) : List TodoTask :=
  (List.insertionSort fileGe (dir.filter (fun f => globMd f.1))).flatMap
    (fun f => scanFile (stemOf f.1) (univNL f.2))

/-- The match test of the line loop in `TodoList.mark_todo_complete`: a
`##` (not `###`) heading line whose extracted todo text equals the label. -/
def taskLineMatch (label line : Chars) : Bool :=
  let ls := stripW line
  hasPre (str "##") ls && !hasPre (str "###") ls && extractLabel ls == label

/-- The `for idx, line in enumerate(lines): ... break` search: index of the
first element satisfying `p`. -/
def findFirst {α : Type} (p : α → Bool) : List α → Option Nat
  | [] => none
  | x :: xs => if p x then some 0 else (findFirst p xs).map (· + 1)

/-- The pure file transformation of `TodoList.mark_todo_complete`: given the
decoded content and the todo label, the text written back (`none` when no
line matches and the file is left unwritten).  The first matching line is
replaced by `f"{indent}## ~~{label}~~"` with `indent` the line's leading
whitespace; all other lines are joined back unchanged. -/
def mark_todo_complete (content label : Chars) : Option Chars :=
  let lines := splitNl content
  match findFirst (taskLineMatch label) lines with
  | none => none
  | some i =>
    let line := lines.getD i []
    let indent := line.takeWhile isPySpace
    some (joinNl (lines.set i (indent ++ str "## ~~" ++ label ++ str "~~")))

inductive IOErr
  | ioFailure
deriving DecidableEq

/-- Outcome of the `file_path.write_text(out)` step.  `write_text` opens
with mode `w`, which truncates before writing, so a failure is not atomic:
a mid-write error such as disk full raises after leaving a truncated
prefix of the attempted bytes on disk, while a failure at open (permission
denied) leaves the previous bytes.  `failed left` records the bytes the
file holds when the exception is raised. -/
inductive WriteOutcome
  | ok
  | failed (left : Chars)
deriving DecidableEq

/-- Source `TodoList.mark_todo_complete` with its I/O structure made
explicit: `readRes` is the outcome of `file_path.read_text()` (`none` =
the read raised), `wr` is the outcome of the `file_path.write_text(...)`
step when a rewrite is attempted.  The whole body runs inside
`try: ... except Exception: pass`, so the first component — the error
surfaced to the caller — reflects that handler; the second component is
the file content after the call (`none` meaning the file keeps its
pre-call content because no write was started). -/
def mark_todo_complete_io (readRes : Option Chars) (wr : WriteOutcome)
    (label : Chars) : Option IOErr × Option Chars :=
  match readRes with
  | none => (none, none)
  | some stored =>
    match mark_todo_complete (univNL stored) label with
    | none => (none, none)
    | some out =>
      match wr with
      | .ok => (none, some out)
      | .failed left => (none, some left)

/-! ## Search engine (`notes.py`, `NoteManager.search_notes`)

Fuzzy scores come from `difflib.SequenceMatcher(None, a, b).ratio()`:
`2*M / T` where `M` is the total size of the matching blocks found by
repeatedly taking the longest matching block and recursing on both sides,
and `T` is the combined length.  The float arithmetic is idealised as exact
rationals, and the autojunk heuristic (active only for `b` of length ≥ 200)
is not modelled.
-/

/-- Size of the matching block starting at a fixed pair of positions: the
longest common prefix of the two suffixes. -/
def prefLen : Chars → Chars → Nat
  | a :: as_, b :: bs => if a = b then prefLen as_ bs + 1 else 0
  | _, _ => 0

/-- Python `SequenceMatcher.find_longest_match` over the whole strings: among all
`(i, j)` maximizing the block size, the smallest `i`, then the smallest `j`
(difflib's documented tie-break; realised here by scanning `i` then `j` in
increasing order and updating only on strictly larger sizes).  Returns
`(i, j, size)`, `(0, 0, 0)` when there is no non-empty match. -/
def bestMatch (a b : Chars) : Nat × Nat × Nat :=
  (List.range a.length).foldl (fun acc i =>
    (List.range b.length).foldl (fun acc2 j =>
      let k := prefLen (a.drop i) (b.drop j)
      if k > acc2.2.2 then (i, j, k) else acc2) acc)
    (0, 0, 0)

/-- Total size `M` of the matching blocks (`get_matching_blocks`): take the
longest matching block and recurse on the parts before and after it.  The
recursion is driven by a fuel argument for structural termination; a fuel
of `a.length + b.length` always suffices since each non-trivial block makes
both recursive calls strictly smaller in combined length. -/
def matchTotalF : Nat → Chars → Chars → Nat
  | 0, _, _ => 0
  | fuel + 1, a, b =>
    let m := bestMatch a b
    if m.2.2 = 0 then 0
    else
      m.2.2 + matchTotalF fuel (a.take m.1) (b.take m.2.1)
        + matchTotalF fuel (a.drop (m.1 + m.2.2)) (b.drop (m.2.1 + m.2.2))

def matchTotal (a b : Chars) : Nat := matchTotalF (a.length + b.length) a b

/-- Python `SequenceMatcher.ratio()`: `2*M / T`, and `1.0` when both strings are
empty (`difflib._calculate_ratio`). -/
def ratioQ (a b : Chars) : ℚ :=
  if a.length + b.length = 0 then 1 else mkRat (2 * matchTotal a b) (a.length + b.length)

/-- The dataclass `SearchResult` of `notes.py` (the `datetime` field holds
a parsed day at midnight, so a `DayKey` carries the same information). -/
structure SearchResult where
  date : DayKey
  filename : Chars
  line_number : Nat
  line_content : Chars
  score : ℚ
deriving DecidableEq

/-- The per-line score of `search_notes`: `1.0` for a case-insensitive
substring hit of the (lowered, stripped) query in the lowered stripped
line, otherwise the `SequenceMatcher` similarity. -/
def scoreOf (ql ls : Chars) : ℚ :=
  if containsSub ql (lowerL ls) then 1 else ratioQ ql (lowerL ls)

/-- The sort order of `results.sort(key=lambda r: (-r.score, -r.date.timestamp()))`:
score descending, ties by date descending.  Timestamps of parsed days
(midnight) order exactly as `toordinal`. -/
def searchLe (r1 r2 : SearchResult) : Prop :=
  r2.score < r1.score ∨ (r1.score = r2.score ∧ toOrdinal r2.date ≤ toOrdinal r1.date)

instance : DecidableRel searchLe := fun r1 r2 => by unfold searchLe; infer_instance

instance : IsTotal SearchResult searchLe where
  total r1 r2 := by
    unfold searchLe
    rcases lt_trichotomy r1.score r2.score with h | h | h
    · exact Or.inr (Or.inl h)
    · rcases Nat.le_total (toOrdinal r2.date) (toOrdinal r1.date) with h2 | h2
      · exact Or.inl (Or.inr ⟨h, h2⟩)
      · exact Or.inr (Or.inr ⟨h.symm, h2⟩)
    · exact Or.inl (Or.inl h)

instance : IsTrans SearchResult searchLe where
  trans r1 r2 r3 h12 h23 := by
    unfold searchLe at *
    rcases h12 with h12 | ⟨he12, ho12⟩
    · rcases h23 with h23 | ⟨he23, ho23⟩
      · exact Or.inl (h23.trans h12)
      · exact Or.inl (he23 ▸ h12)
    · rcases h23 with h23 | ⟨he23, ho23⟩
      · exact Or.inl (he12 ▸ h23)
      · exact Or.inr ⟨he12.trans he23, ho23.trans ho12⟩

/-- The per-file body of `NoteManager.search_notes`: parse the stem (skip
the file on `ValueError`), read and decode the text (unreadable files are
skipped by the per-file `try/except`; the directory model presents the
readable files), then score every non-blank stripped line against the
lowered stripped query `ql`, keeping scores ≥ `minScore`.  Lines are
numbered by `enumerate(..., start=1)`. -/
def searchFileRaw (loc : TimeLocale) (ql : Chars) (minScore : ℚ)
    (f : Chars × Chars) : List SearchResult :=
  if globMd f.1 then
    match parseDayKey loc (stemOf f.1) with
    | none => []
    | some d =>
      (enumFrom 1 (splitNl (univNL f.2))).filterMap (fun p =>
        if (stripW p.2).isEmpty then none
        else if minScore ≤ scoreOf ql (stripW p.2) then
          some ⟨d, stemOf f.1, p.1, stripW p.2, scoreOf ql (stripW p.2)⟩
        else none)
  else []

/-- Source `NoteManager.search_notes` over a directory given as a list of
(filename, stored text) pairs. -/
def search_notes (loc : TimeLocale) (dir : List (Chars × Chars)) (q : Chars)
    (minScore : ℚ) : List SearchResult :=
  if (stripW q).isEmpty then []
  else
    List.insertionSort searchLe
      (dir.flatMap (searchFileRaw loc (lowerL (stripW q)) minScore))

/-! ### Basic string lemmas -/

theorem univNL_of_no_cr : ∀ (cs : Chars), '\r' ∉ cs → univNL cs = cs
  | [], _ => rfl
  | [c], h => by
    have hc : ¬(c = '\r') := by simp at h; exact fun he => h he.symm
    simp [univNL, hc]
  | c :: c2 :: cs, h => by
    have hc : ¬(c = '\r') := by simp at h; exact fun he => h.1 he.symm
    have hcs : '\r' ∉ c2 :: cs := by simp at h ⊢; exact ⟨h.2.1, h.2.2⟩
    simp [univNL, hc, univNL_of_no_cr (c2 :: cs) hcs]

/-! ## Claim theorems: repository -/

/-- C1: the path mapping is NOT locale-independent.  `get_note_path` goes
through `strftime("%d-%b-%Y.md")` after the module set `LC_TIME` to
Norwegian; with the `nb_NO` locale installed the filename for 2025-05-21 is
`21-mai-2025.md`, not the fixed English `21-May-2025.md` the spec requires
(and which the repository's own test `test_notes.py` asserts). -/
theorem C1_locale_dependent_path :
    get_note_path .nb ⟨2025, 5, 21⟩ = str "21-mai-2025.md"
    ∧ get_note_path .c ⟨2025, 5, 21⟩ = str "21-May-2025.md"
    ∧ get_note_path .nb ⟨2025, 5, 21⟩ ≠ get_note_path .c ⟨2025, 5, 21⟩ := by
  refine ⟨by decide, by decide, by decide⟩

/-- C3 (counterexample): the write/read round trip is not byte-for-byte for
texts with carriage returns: saving `"a\r\nb"` and reading it back yields
`"a\nb"` (universal-newline decoding in `Path.read_text`). -/
theorem C3_roundtrip_cr_counterexample :
    (get_note_content .c
        (save_note_content .c emptyFS ⟨2025, 11, 21⟩ (str "a\r\nb")) ⟨2025, 11, 21⟩).1
      = str "a\nb"
    ∧ str "a\nb" ≠ str "a\r\nb" := by
  refine ⟨by decide, by decide⟩

/-- C3 (amended): for every text containing no carriage return,
`save_note_content` followed by `get_note_content` on the same day returns
exactly that text; in general `'\r\n'` and lone `'\r'` are normalized to
`'\n'` by the read. -/
theorem C3_roundtrip_no_cr (loc : TimeLocale) (fs : FS) (d : DayKey) (t : Chars)
    (h : '\r' ∉ t) :
    (get_note_content loc (save_note_content loc fs d t) d).1 = t := by
  simp [get_note_content, save_note_content, univNL_of_no_cr t h]

/-- Witness for `C3_roundtrip_no_cr` at a concrete input. -/
theorem C3_roundtrip_no_cr_witness :
    '\r' ∉ str "# Test Note\n\nThis is a test.\n"
    ∧ (get_note_content .c
        (save_note_content .c emptyFS ⟨2025, 11, 21⟩ (str "# Test Note\n\nThis is a test.\n"))
        ⟨2025, 11, 21⟩).1 = str "# Test Note\n\nThis is a test.\n" :=
  ⟨by decide, C3_roundtrip_no_cr .c emptyFS ⟨2025, 11, 21⟩ _ (by decide)⟩

/-- C9: reading a day with no file returns the synthesized default content
`# <Weekday>, <DD Month YYYY>\n\n` — with the weekday name of the correct
weekday of `d` and the long-form date — and does not create a file:
the filesystem is returned unchanged and `note_exists` is still false. -/
theorem C9_default_content (loc : TimeLocale) (fs : FS) (d : DayKey)
    (h : note_exists loc fs d = false) :
    (get_note_content loc fs d).1
      = str "# " ++ weekdayName loc (weekdayIdx d) ++ str ", " ++ pad2 d.day
          ++ ' ' :: monthFull loc d.month ++ ' ' :: natChars d.year ++ str "\n\n"
    ∧ (get_note_content loc fs d).2 = fs
    ∧ note_exists loc fs d = false := by
  have hnone : fs (get_note_path loc d) = none := by
    cases hfs : fs (get_note_path loc d) with
    | none => rfl
    | some v => rw [note_exists, hfs] at h; simp at h
  refine ⟨?_, ?_, h⟩
  · simp [get_note_content, hnone, create_default_content]
  · simp [get_note_content, hnone]

/-- Witness for `C9_default_content`: 2025-11-21 was a Friday; in the C
locale the synthesized content is exactly the spec's example
`# Friday, 21 November 2025\n\n`. -/
theorem C9_default_content_witness :
    note_exists .c emptyFS ⟨2025, 11, 21⟩ = false
    ∧ (get_note_content .c emptyFS ⟨2025, 11, 21⟩).1 = str "# Friday, 21 November 2025\n\n" := by
  have h := C9_default_content .c emptyFS ⟨2025, 11, 21⟩ (by decide)
  exact ⟨by decide, by rw [h.1]; decide⟩

/-! ### Scan helper lemmas -/

theorem mem_enumFrom {α : Type} (x : α) :
    ∀ (l : List α) (n j : Nat), (j, x) ∈ enumFrom n l ↔ n ≤ j ∧ l[j - n]? = some x := by
  intro l
  induction l with
  | nil => intro n j; simp [enumFrom]
  | cons y ys ih =>
    intro n j
    simp only [enumFrom, List.mem_cons, Prod.mk.injEq, ih]
    constructor
    · rintro (⟨rfl, rfl⟩ | ⟨hle, hget⟩)
      · simp
      · refine ⟨by omega, ?_⟩
        have hj : j - n = (j - (n + 1)) + 1 := by omega
        rw [hj, List.getElem?_cons_succ]
        exact hget
    · rintro ⟨hle, hget⟩
      rcases Nat.eq_or_lt_of_le hle with heq | hlt
      · left
        subst heq
        simp at hget
        exact ⟨rfl, hget.symm⟩
      · right
        refine ⟨hlt, ?_⟩
        have hj : j - n = (j - (n + 1)) + 1 := by omega
        rw [hj, List.getElem?_cons_succ] at hget
        exact hget

theorem findFirst_eq_none_iff {α : Type} (p : α → Bool) :
    ∀ l : List α, findFirst p l = none ↔ ∀ x ∈ l, p x = false := by
  intro l
  induction l with
  | nil => simp [findFirst]
  | cons x xs ih =>
    cases hp : p x <;> simp [findFirst, hp, Option.map_eq_none', ih]

theorem findFirst_eq_some_of {α : Type} (p : α → Bool) :
    ∀ (l : List α) (i : Nat) (x : α), l[i]? = some x → p x = true →
      (∀ j < i, ∀ y, l[j]? = some y → p y = false) → findFirst p l = some i := by
  intro l
  induction l with
  | nil => intro i x hget; simp at hget
  | cons z zs ih =>
    intro i x hget hp hfirst
    cases i with
    | zero =>
      simp at hget
      subst hget
      simp [findFirst, hp]
    | succ i =>
      have hz : p z = false := hfirst 0 (Nat.succ_pos i) z (by simp)
      rw [List.getElem?_cons_succ] at hget
      have hshift : ∀ j < i, ∀ y, zs[j]? = some y → p y = false := by
        intro j hj y hy
        exact hfirst (j + 1) (by omega) y (by rw [List.getElem?_cons_succ]; exact hy)
      simp [findFirst, hz, ih i x hget hp hshift]

theorem scanLine_eq_some_iff (stem : Chars) (j : Nat) (line : Chars) (t : TodoTask) :
    scanLine stem (j, line) = some t ↔
      hasPre (str "##") (stripW line) = true ∧
      hasPre (str "###") (stripW line) = false ∧
      ¬(hasPre (str "~~") (extractLabel (stripW line)) = true ∧
        hasSuf (str "~~") (extractLabel (stripW line)) = true) ∧
      extractLabel (stripW line) ≠ [] ∧
      (⟨extractLabel (stripW line), stem, j⟩ : TodoTask) = t := by
  simp only [scanLine]
  cases h1 : hasPre (str "##") (stripW line) <;>
    cases h2 : hasPre (str "###") (stripW line) <;>
      cases h3 : hasPre (str "~~") (extractLabel (stripW line)) <;>
        cases h4 : hasSuf (str "~~") (extractLabel (stripW line)) <;>
          by_cases h5 : extractLabel (stripW line) = [] <;>
            simp [h1, h2, h3, h4, h5, List.isEmpty_iff]

/-! ### Claim theorems: task index -/

/-- C2 evaluated at the failing input: `scan_notes` orders files by
lexicographically-descending *filename*, not by day key; with files
`01-Dec-2025.md` and `30-Nov-2025.md` on disk the November 30 tasks come
first even though December 1 is the later calendar day. -/
theorem C2_lexicographic_not_daykey :
    scan_notes [(str "01-Dec-2025.md", str "## A"), (str "30-Nov-2025.md", str "## B")]
      = [⟨str "B", str "30-Nov-2025", 0⟩, ⟨str "A", str "01-Dec-2025", 0⟩]
    ∧ dayLexLt ⟨2025, 11, 30⟩ ⟨2025, 12, 1⟩
    ∧ parseDayKey .c (str "30-Nov-2025") = some ⟨2025, 11, 30⟩
    ∧ parseDayKey .c (str "01-Dec-2025") = some ⟨2025, 12, 1⟩ := by
  refine ⟨by decide, by decide, by decide, by decide⟩

/-- C4 (counterexample): an injected failure of the file-rewrite step of
`mark_todo_complete` (here a disk-full failure that leaves the file
truncated to nothing) is not surfaced: the caller sees no error even
though a matching task line exists, so the write step is genuinely
reached. -/
theorem C4_write_error_not_surfaced :
    (mark_todo_complete_io (some (str "## Buy milk")) (.failed []) (str "Buy milk")).1 = none
    ∧ mark_todo_complete (univNL (str "## Buy milk")) (str "Buy milk") ≠ none := by
  refine ⟨by decide, by decide⟩

/-- C4 (amended): `mark_todo_complete` runs inside a blanket
`try/except Exception: pass`: whatever the outcome of the read and of the
file-rewrite step — including a non-atomic write failure that leaves the
file truncated or partially written — no error of any kind is surfaced to
the caller. -/
theorem C4_amended_errors_swallowed (readRes : Option Chars) (wr : WriteOutcome)
    (label : Chars) :
    (mark_todo_complete_io readRes wr label).1 = none := by
  unfold mark_todo_complete_io
  cases readRes with
  | none => rfl
  | some stored =>
    cases hm : mark_todo_complete (univNL stored) label with
    | none => simp [hm]
    | some out => cases wr <;> simp [hm]

/-- C5 (counterexample): `scan_notes` performs no day-key validation of
filenames: the file `notes.md`, whose stem parses as a day key in no
locale, still contributes its task lines (the spec says such files
contribute no tasks). -/
theorem C5_invalid_name_still_scanned :
    scan_notes [(str "notes.md", str "## Task")] = [⟨str "Task", str "notes", 0⟩]
    ∧ parseDayKey .c (str "notes") = none
    ∧ parseDayKey .nb (str "notes") = none := by
  refine ⟨by decide, by decide, by decide⟩

/-- C6: `mark_todo_complete` rewrites exactly the first `##` (not `###`)
line whose extracted label equals the task's label — the new line is the
original leading whitespace followed by `## ~~label~~` (trailing `#`
decoration dropped), every other line is kept unchanged in the
newline-joined output — and when no line matches it writes nothing. -/
theorem C6_complete_rewrites_first_match (content label : Chars) :
    ((∀ line ∈ splitNl content, taskLineMatch label line = false) →
        mark_todo_complete content label = none)
    ∧ (∀ (i : Nat) (line : Chars), (splitNl content)[i]? = some line →
        taskLineMatch label line = true →
        (∀ j < i, ∀ l2, (splitNl content)[j]? = some l2 → taskLineMatch label l2 = false) →
        mark_todo_complete content label
          = some (joinNl ((splitNl content).set i
              (line.takeWhile isPySpace ++ str "## ~~" ++ label ++ str "~~")))) := by
  constructor
  · intro hnone
    have h := (findFirst_eq_none_iff (taskLineMatch label) (splitNl content)).mpr hnone
    simp [mark_todo_complete, h]
  · intro i line hget hp hfirst
    have h := findFirst_eq_some_of (taskLineMatch label) (splitNl content) i line hget hp hfirst
    simp [mark_todo_complete, h, hget]

/-- Witness for `C6_complete_rewrites_first_match`: in a three-line file the
indented `## Buy milk #` line (line 1) is the first match; completion
rewrites it to `  ## ~~Buy milk~~` and leaves lines 0 and 2 unchanged. -/
theorem C6_complete_rewrites_first_match_witness :
    ((splitNl (str "# head\n  ## Buy milk #\n## Other"))[1]? = some (str "  ## Buy milk #")
      ∧ taskLineMatch (str "Buy milk") (str "  ## Buy milk #") = true)
    ∧ mark_todo_complete (str "# head\n  ## Buy milk #\n## Other") (str "Buy milk")
        = some (str "# head\n  ## ~~Buy milk~~\n## Other") := by
  refine ⟨⟨by decide, by decide⟩, ?_⟩
  have h := (C6_complete_rewrites_first_match (str "# head\n  ## Buy milk #\n## Other")
      (str "Buy milk")).2 1 (str "  ## Buy milk #") (by decide) (by decide)
      (by
        intro j hj l2 hl2
        have hj0 : j = 0 := by omega
        subst hj0
        rw [show (splitNl (str "# head\n  ## Buy milk #\n## Other"))[0]?
            = some (str "# head") from by decide] at hl2
        obtain ⟨rfl⟩ := Option.some.injEq .. ▸ hl2
        decide)
  rw [h]
  decide

/-- C7: `scan_notes`'s per-file scan emits a task exactly for each line
whose stripped form starts with `##` but not `###` and whose extracted
label is non-empty and not `~~`-wrapped; the task carries that label and
the line's 0-based index.  In particular the spec's example file yields
exactly the one task `Buy milk`. -/
theorem C7_task_lines (stem content lbl : Chars) (i : Nat) :
    ((⟨lbl, stem, i⟩ : TodoTask) ∈ scanFile stem content ↔
      ∃ line, (splitNl content)[i]? = some line ∧
        hasPre (str "##") (stripW line) = true ∧
        hasPre (str "###") (stripW line) = false ∧
        lbl = extractLabel (stripW line) ∧
        lbl ≠ [] ∧
        ¬(hasPre (str "~~") lbl = true ∧ hasSuf (str "~~") lbl = true))
    ∧ scan_notes [(str "day.md", str "## Buy milk\n### Not a task\n## ~~Done item~~")]
        = [⟨str "Buy milk", str "day", 0⟩] := by
  constructor
  · constructor
    · intro hmem
      simp only [scanFile, List.mem_filterMap] at hmem
      obtain ⟨⟨j, line⟩, hmem, hline⟩ := hmem
      rw [scanLine_eq_some_iff] at hline
      obtain ⟨h1, h2, h3, h4, ht⟩ := hline
      obtain ⟨hlbl, -, hj⟩ := TodoTask.mk.injEq .. ▸ ht.symm
      subst hj
      rw [mem_enumFrom] at hmem
      refine ⟨line, by simpa using hmem.2, h1, h2, hlbl, hlbl ▸ h4, hlbl ▸ h3⟩
    · rintro ⟨line, hget, h1, h2, hlbl, h4, h3⟩
      simp only [scanFile, List.mem_filterMap]
      refine ⟨(i, line), ?_, ?_⟩
      · rw [mem_enumFrom]
        simpa using hget
      · rw [scanLine_eq_some_iff]
        exact ⟨h1, h2, hlbl ▸ h3, hlbl ▸ h4, by rw [hlbl]⟩
  · decide

/-! ### SequenceMatcher lemmas: the matched total is the length of a
common subsequence, hence the similarity of distinct strings is below 1. -/

theorem foldl_preserve {α β : Type} (P : β → Prop) (f : β → α → β) :
    ∀ (l : List α) (init : β), P init → (∀ acc x, x ∈ l → P acc → P (f acc x)) →
      P (l.foldl f init) := by
  intro l
  induction l with
  | nil => intro init h _; exact h
  | cons x xs ih =>
    intro init h hstep
    exact ih (f init x) (hstep init x (List.mem_cons_self x xs) h)
      (fun acc y hy => hstep acc y (List.mem_cons_of_mem x hy))

theorem prefLen_le_left : ∀ (a b : Chars), prefLen a b ≤ a.length := by
  intro a
  induction a with
  | nil => intro b; simp [prefLen]
  | cons c cs ih =>
    intro b
    cases b with
    | nil => simp [prefLen]
    | cons d ds =>
      by_cases h : c = d <;> simp [prefLen, h]
      exact ih ds

theorem prefLen_le_right : ∀ (a b : Chars), prefLen a b ≤ b.length := by
  intro a
  induction a with
  | nil => intro b; simp [prefLen]
  | cons c cs ih =>
    intro b
    cases b with
    | nil => simp [prefLen]
    | cons d ds =>
      by_cases h : c = d <;> simp [prefLen, h]
      exact ih ds

theorem prefLen_take_eq : ∀ (a b : Chars), a.take (prefLen a b) = b.take (prefLen a b) := by
  intro a
  induction a with
  | nil => intro b; simp [prefLen]
  | cons c cs ih =>
    intro b
    cases b with
    | nil => simp [prefLen]
    | cons d ds =>
      by_cases h : c = d <;> simp [prefLen, h]
      exact ih ds

theorem bestMatch_spec (a b : Chars) :
    (bestMatch a b).2.2 = 0 ∨
      ((bestMatch a b).1 < a.length ∧ (bestMatch a b).2.1 < b.length ∧
        (bestMatch a b).2.2 = prefLen (a.drop (bestMatch a b).1) (b.drop (bestMatch a b).2.1)) := by
  unfold bestMatch
  refine foldl_preserve
    (fun acc : Nat × Nat × Nat => acc.2.2 = 0 ∨
      (acc.1 < a.length ∧ acc.2.1 < b.length ∧
        acc.2.2 = prefLen (a.drop acc.1) (b.drop acc.2.1)))
    _ _ _ (Or.inl rfl) ?_
  intro acc i hi hacc
  refine foldl_preserve
    (fun acc2 : Nat × Nat × Nat => acc2.2.2 = 0 ∨
      (acc2.1 < a.length ∧ acc2.2.1 < b.length ∧
        acc2.2.2 = prefLen (a.drop acc2.1) (b.drop acc2.2.1)))
    _ _ _ hacc ?_
  intro acc2 j hj hacc2
  by_cases hk : prefLen (a.drop i) (b.drop j) > acc2.2.2
  · simp only [hk, if_pos]
    exact Or.inr ⟨List.mem_range.mp hi, List.mem_range.mp hj, trivial⟩
  · simpa [hk] using hacc2

theorem matchTotalF_subseq :
    ∀ (fuel : Nat) (a b : Chars), a.length + b.length ≤ fuel →
      ∃ s : Chars, s.Sublist a ∧ s.Sublist b ∧ s.length = matchTotalF fuel a b := by
  intro fuel
  induction fuel with
  | zero => intro a b _; exact ⟨[], List.nil_sublist a, List.nil_sublist b, rfl⟩
  | succ fuel ih =>
    intro a b hfuel
    rcases hbm : bestMatch a b with ⟨i, j, k⟩
    have hspec := bestMatch_spec a b
    rw [hbm] at hspec
    simp only at hspec
    by_cases hk0 : k = 0
    · refine ⟨[], List.nil_sublist a, List.nil_sublist b, ?_⟩
      simp [matchTotalF, hbm, hk0]
    · obtain ⟨hi, hj, hkeq⟩ := hspec.resolve_left hk0
      have hk1 : 1 ≤ k := Nat.one_le_iff_ne_zero.mpr hk0
      have hik : i + k ≤ a.length := by
        have := prefLen_le_left (a.drop i) (b.drop j)
        rw [← hkeq] at this
        simp [List.length_drop] at this
        omega
      have hjk : j + k ≤ b.length := by
        have := prefLen_le_right (a.drop i) (b.drop j)
        rw [← hkeq] at this
        simp [List.length_drop] at this
        omega
      obtain ⟨s1, hs1a, hs1b, hs1len⟩ := ih (a.take i) (b.take j)
        (by simp only [List.length_take]; omega)
      obtain ⟨s2, hs2a, hs2b, hs2len⟩ := ih (a.drop (i + k)) (b.drop (j + k))
        (by simp only [List.length_drop]; omega)
      refine ⟨s1 ++ (a.drop i).take k ++ s2, ?_, ?_, ?_⟩
      · have hdecomp : a.take i ++ ((a.drop i).take k ++ a.drop (i + k)) = a := by
          have h1 : (a.drop i).drop k = a.drop (i + k) := by
            rw [List.drop_drop]
          rw [← h1, List.take_append_drop, List.take_append_drop]
        have hsub : List.Sublist (s1 ++ ((a.drop i).take k ++ s2))
            (a.take i ++ ((a.drop i).take k ++ a.drop (i + k))) :=
          List.Sublist.append hs1a (List.Sublist.append (List.Sublist.refl _) hs2a)
        rw [hdecomp] at hsub
        simpa [List.append_assoc] using hsub
      · have hblock : (a.drop i).take k = (b.drop j).take k := by
          rw [hkeq]; exact prefLen_take_eq (a.drop i) (b.drop j)
        have hdecomp : b.take j ++ ((b.drop j).take k ++ b.drop (j + k)) = b := by
          have h1 : (b.drop j).drop k = b.drop (j + k) := by
            rw [List.drop_drop]
          rw [← h1, List.take_append_drop, List.take_append_drop]
        have hsub : List.Sublist (s1 ++ ((b.drop j).take k ++ s2))
            (b.take j ++ ((b.drop j).take k ++ b.drop (j + k))) :=
          List.Sublist.append hs1b (List.Sublist.append (List.Sublist.refl _) hs2b)
        rw [hdecomp] at hsub
        rw [hblock]
        simpa [List.append_assoc] using hsub
      · have hblen : ((a.drop i).take k).length = k := by
          simp [List.length_take, List.length_drop]
          omega
        have hval : matchTotalF (fuel + 1) a b
            = k + matchTotalF fuel (a.take i) (b.take j)
              + matchTotalF fuel (a.drop (i + k)) (b.drop (j + k)) := by
          simp only [matchTotalF, hbm]
          rw [if_neg hk0]
        rw [hval]
        simp [hblen, hs1len, hs2len]
        omega

theorem two_matchTotal_lt {a b : Chars} (h : a ≠ b) :
    2 * matchTotal a b < a.length + b.length := by
  unfold matchTotal
  obtain ⟨s, hsa, hsb, hslen⟩ := matchTotalF_subseq (a.length + b.length) a b le_rfl
  have hla : s.length ≤ a.length := hsa.length_le
  have hlb : s.length ≤ b.length := hsb.length_le
  by_contra hge
  push_neg at hge
  have hea : s.length = a.length := by omega
  have heb : s.length = b.length := by omega
  exact h ((hsa.eq_of_length hea).symm.trans (hsb.eq_of_length heb))

theorem ratioQ_lt_one {a b : Chars} (h : a ≠ b) : ratioQ a b < 1 := by
  unfold ratioQ
  by_cases h0 : a.length + b.length = 0
  · exact absurd (by
      cases a with
      | nil => cases b with
        | nil => rfl
        | cons x xs => simp at h0
      | cons x xs => simp at h0) h
  · rw [if_neg h0, Rat.mkRat_eq_div]
    have hT : (0 : ℚ) < ((a.length + b.length : Nat) : ℚ) := by
      exact_mod_cast Nat.pos_of_ne_zero h0
    rw [div_lt_one (by exact_mod_cast hT)]
    have := two_matchTotal_lt h
    push_cast
    exact_mod_cast this

theorem hasPre_refl : ∀ (a : Chars), hasPre a a = true := by
  intro a
  induction a with
  | nil => rfl
  | cons c cs ih => simp [hasPre, ih]

theorem containsSub_self (a : Chars) : containsSub a a = true := by
  cases a with
  | nil => rfl
  | cons c cs => simp [containsSub, hasPre_refl]

theorem scoreOf_fuzzy_lt_one {ql ls : Chars}
    (h : containsSub ql (lowerL ls) = false) :
    scoreOf ql ls = ratioQ ql (lowerL ls) ∧ scoreOf ql ls < 1 := by
  have hne : ql ≠ lowerL ls := by
    intro he
    rw [← he, containsSub_self ql] at h
    exact Bool.true_eq_false.mp h
  unfold scoreOf
  rw [if_neg (by simp [h])]
  exact ⟨rfl, ratioQ_lt_one hne⟩

theorem scoreOf_sub_eq_one {ql ls : Chars}
    (h : containsSub ql (lowerL ls) = true) : scoreOf ql ls = 1 := by
  unfold scoreOf
  rw [if_pos (by simp [h])]

theorem scoreOf_le_one (ql ls : Chars) : scoreOf ql ls ≤ 1 := by
  cases h : containsSub ql (lowerL ls) with
  | true => exact le_of_eq (scoreOf_sub_eq_one h)
  | false => exact le_of_lt (scoreOf_fuzzy_lt_one h).2

/-! ### Calendar lemmas: the day ordinal is strictly monotone in calendar
(lexicographic) order on valid dates, so sorting by `-timestamp` is sorting
by day key descending. -/

theorem sum_take_succ_getD : ∀ (L : List Nat) (k : Nat), k < L.length →
    (L.take (k + 1)).sum = (L.take k).sum + L.getD k 0 := by
  intro L
  induction L with
  | nil => intro k hk; simp at hk
  | cons x xs ih =>
    intro k hk
    cases k with
    | zero => simp [List.getD]
    | succ k =>
      simp only [List.take_succ_cons, List.sum_cons, List.getD_cons_succ]
      rw [ih k (by simpa using hk)]
      omega

theorem sum_take_le_sum : ∀ (L : List Nat) (k : Nat), (L.take k).sum ≤ L.sum := by
  intro L
  induction L with
  | nil => intro k; simp
  | cons x xs ih =>
    intro k
    cases k with
    | zero => simp
    | succ k => simp only [List.take_succ_cons, List.sum_cons]; exact Nat.add_le_add_left (ih k) x

theorem sum_take_mono (L : List Nat) {k1 k2 : Nat} (h : k1 ≤ k2) :
    (L.take k1).sum ≤ (L.take k2).sum := by
  have h1 : L.take k1 = (L.take k2).take k1 := by
    rw [List.take_take, Nat.min_eq_left h]
  rw [h1]
  exact sum_take_le_sum (L.take k2) k1

theorem monthLengths_length (y : Nat) : (monthLengths y).length = 12 := by
  cases h : isLeap y <;> simp [monthLengths, h]

theorem monthLengths_sum (y : Nat) : (monthLengths y).sum = daysInYear y := by
  cases h : isLeap y <;> simp [monthLengths, daysInYear, h]

theorem inMonth_le (y m d : Nat) (hm1 : 1 ≤ m) (hm2 : m ≤ 12)
    (hd : d ≤ daysInMonth y m) :
    daysBeforeMonth y m + d ≤ ((monthLengths y).take m).sum := by
  have hk : m - 1 < (monthLengths y).length := by rw [monthLengths_length]; omega
  have hstep := sum_take_succ_getD (monthLengths y) (m - 1) hk
  have hm : m - 1 + 1 = m := by omega
  rw [hm] at hstep
  unfold daysBeforeMonth daysInMonth at *
  omega

theorem inYear_le (y m d : Nat) (hm1 : 1 ≤ m) (hm2 : m ≤ 12)
    (hd : d ≤ daysInMonth y m) :
    daysBeforeMonth y m + d ≤ daysInYear y := by
  have h1 := inMonth_le y m d hm1 hm2 hd
  have h2 := sum_take_le_sum (monthLengths y) m
  rw [monthLengths_sum] at h2
  omega

theorem monthStart_le (y : Nat) {m1 m2 : Nat} (h1 : 1 ≤ m1) (h12 : m1 < m2)
    (hm2 : m2 ≤ 12) :
    daysBeforeMonth y m1 + daysInMonth y m1 ≤ daysBeforeMonth y m2 := by
  have hk : m1 - 1 < (monthLengths y).length := by rw [monthLengths_length]; omega
  have hstep := sum_take_succ_getD (monthLengths y) (m1 - 1) hk
  have hm : m1 - 1 + 1 = m1 := by omega
  rw [hm] at hstep
  have hmono := sum_take_mono (monthLengths y) (show m1 ≤ m2 - 1 by omega)
  unfold daysBeforeMonth daysInMonth at *
  omega

set_option maxHeartbeats 1000000 in
theorem daysBeforeYear_succ (y : Nat) (hy : 1 ≤ y) :
    daysBeforeYear (y + 1) = daysBeforeYear y + daysInYear y := by
  have hiff : isLeap y = true ↔ (y % 4 = 0 ∧ (y % 100 ≠ 0 ∨ y % 400 = 0)) := by
    simp [isLeap]
  unfold daysBeforeYear daysInYear
  by_cases hL : isLeap y = true
  · rw [if_pos hL]
    rw [hiff] at hL
    omega
  · rw [if_neg hL]
    rw [hiff] at hL
    push_neg at hL
    omega

theorem daysBeforeYear_le (y1 y2 : Nat) (h1 : 1 ≤ y1) (h12 : y1 < y2) :
    daysBeforeYear y1 + daysInYear y1 ≤ daysBeforeYear y2 := by
  induction y2 with
  | zero => omega
  | succ y2 ih =>
    rcases Nat.lt_or_ge y1 y2 with hlt | hge
    · have := ih hlt
      have h2 := daysBeforeYear_succ y2 (by omega)
      omega
    · have : y1 = y2 := by omega
      subst this
      exact le_of_eq (daysBeforeYear_succ y1 h1).symm

theorem toOrdinal_lt_of_dayLexLt {x y : DayKey} (hx : validDay x) (hy : validDay y)
    (h : dayLexLt x y) : toOrdinal x < toOrdinal y := by
  obtain ⟨hx1, hxm1, hxm2, hxd1, hxd2⟩ := hx
  obtain ⟨hy1, hym1, hym2, hyd1, hyd2⟩ := hy
  unfold toOrdinal
  rcases h with hyr | ⟨hey, hm | ⟨hem, hd⟩⟩
  · have ha := inYear_le x.year x.month x.day hxm1 hxm2 hxd2
    have hb := daysBeforeYear_le x.year y.year hx1 hyr
    have hc : 0 ≤ daysBeforeMonth y.year y.month := Nat.zero_le _
    omega
  · rw [hey]
    have hxd2' : x.day ≤ daysInMonth y.year x.month := hey ▸ hxd2
    have hms := monthStart_le y.year hxm1 hm hym2
    omega
  · rw [hey, hem]
    omega

/-! ### Day-key parse lemmas -/

theorem parseDayKey_valid (loc : TimeLocale) (s : Chars) (d : DayKey)
    (h : parseDayKey loc s = some d) : validDay d := by
  unfold parseDayKey at h
  split at h
  case h_1 ds ms ys =>
    split at h
    case h_1 dd mm yy hdd hmm hyy =>
      split at h
      case isTrue hcond =>
        obtain ⟨hd1, hds, hys, hy1, hdm⟩ := hcond
        injection h with h
        subst h
        have hmmem : mm ∈ monthsOneToTwelve := List.mem_of_find?_eq_some hmm
        have hmb : 1 ≤ mm ∧ mm ≤ 12 :=
          (by decide : ∀ m ∈ monthsOneToTwelve, 1 ≤ m ∧ m ≤ 12) mm hmmem
        exact ⟨hy1, hmb.1, hmb.2, hd1, hdm⟩
      case isFalse => exact Option.noConfusion h
    all_goals exact Option.noConfusion h
  case h_2 => exact Option.noConfusion h

/-! ### Search membership lemmas -/

theorem mem_searchFileRaw (loc : TimeLocale) (ql : Chars) (ms : ℚ)
    (f : Chars × Chars) (r : SearchResult) :
    r ∈ searchFileRaw loc ql ms f ↔
      ∃ d, globMd f.1 = true ∧ parseDayKey loc (stemOf f.1) = some d ∧
        ∃ n line, (n, line) ∈ enumFrom 1 (splitNl (univNL f.2)) ∧
          (stripW line).isEmpty = false ∧ ms ≤ scoreOf ql (stripW line) ∧
          r = ⟨d, stemOf f.1, n, stripW line, scoreOf ql (stripW line)⟩ := by
  unfold searchFileRaw
  by_cases hg : globMd f.1
  · rw [if_pos hg]
    cases hp : parseDayKey loc (stemOf f.1) with
    | none => simp
    | some d =>
      simp only [List.mem_filterMap]
      constructor
      · rintro ⟨⟨n, line⟩, hmem, hf⟩
        by_cases he : (stripW line).isEmpty
        · rw [if_pos he] at hf
          exact absurd hf (by simp)
        · rw [if_neg he] at hf
          by_cases hs : ms ≤ scoreOf ql (stripW line)
          · rw [if_pos hs] at hf
            injection hf with hf
            exact ⟨d, hg, rfl, n, line, hmem, by simp at he ⊢; exact he, hs, hf.symm⟩
          · rw [if_neg hs] at hf
            exact absurd hf (by simp)
      · rintro ⟨d', hg', hp', n, line, hmem, he, hs, hr⟩
        injection hp' with hp'
        subst hp'
        refine ⟨(n, line), hmem, ?_⟩
        rw [if_neg (by simp [he]), if_pos hs, hr]
  · rw [if_neg hg]
    simp only [List.not_mem_nil, false_iff]
    rintro ⟨d, hg', -⟩
    exact hg hg'

theorem mem_search_notes (loc : TimeLocale) (dir : List (Chars × Chars))
    (q : Chars) (ms : ℚ) (r : SearchResult) :
    r ∈ search_notes loc dir q ms ↔
      (stripW q).isEmpty = false ∧
        ∃ f ∈ dir, r ∈ searchFileRaw loc (lowerL (stripW q)) ms f := by
  unfold search_notes
  by_cases hq : (stripW q).isEmpty
  · simp [hq]
  · rw [if_neg hq]
    rw [(List.perm_insertionSort searchLe _).mem_iff, List.mem_flatMap]
    simp [hq]

theorem stemOf_md (s : Chars) (hs : s ≠ []) : stemOf (s ++ str ".md") = s := by
  unfold stemOf
  have hlen : (s ++ str ".md").length = s.length + 3 := by
    rw [List.length_append]
    rfl
  have hpos : 1 ≤ s.length := List.length_pos.mpr hs
  rw [if_pos (by omega), hlen]
  have h3 : s.length + 3 - 3 = s.length := by omega
  rw [h3]
  exact List.take_left s (str ".md")

theorem parseDayKey_ne_nil (loc : TimeLocale) (s : Chars)
    (h : (parseDayKey loc s).isSome) : s ≠ [] := by
  intro hnil
  subst hnil
  rw [show parseDayKey loc [] = none from rfl] at h
  simp at h

/-- Every result of `search_notes` satisfies: its score is the line's
`scoreOf`, it is at least the threshold, and its date is a valid parsed
day. -/
theorem search_result_facts (loc : TimeLocale) (dir : List (Chars × Chars))
    (q : Chars) (ms : ℚ) (r : SearchResult) (h : r ∈ search_notes loc dir q ms) :
    r.score = scoreOf (lowerL (stripW q)) r.line_content
    ∧ ms ≤ r.score ∧ validDay r.date := by
  rw [mem_search_notes] at h
  obtain ⟨-, f, -, hf⟩ := h
  rw [mem_searchFileRaw] at hf
  obtain ⟨d, -, hp, n, line, -, -, hs, hr⟩ := hf
  subst hr
  exact ⟨rfl, hs, parseDayKey_valid loc (stemOf f.1) d hp⟩

/-! ### Claim theorems: search engine -/

/-- C8: `search_notes` gives every line containing the lowered trimmed
query as a substring the score exactly 1; every non-substring match gets
exactly the `SequenceMatcher` ratio, which is strictly below 1; results
below `minScore` are discarded; the output is sorted by score descending
with ties by day key descending, so every substring match sorts before
every fuzzy match. -/
theorem C8_search_scoring (loc : TimeLocale) (dir : List (Chars × Chars))
    (q : Chars) (ms : ℚ) :
    List.Sorted searchLe (search_notes loc dir q ms)
    ∧ (∀ r ∈ search_notes loc dir q ms,
        ms ≤ r.score
        ∧ (containsSub (lowerL (stripW q)) (lowerL r.line_content) = true → r.score = 1)
        ∧ (containsSub (lowerL (stripW q)) (lowerL r.line_content) = false →
            r.score = ratioQ (lowerL (stripW q)) (lowerL r.line_content) ∧ r.score < 1))
    ∧ List.Pairwise (fun r1 r2 =>
        (containsSub (lowerL (stripW q)) (lowerL r2.line_content) = true →
          containsSub (lowerL (stripW q)) (lowerL r1.line_content) = true)
        ∧ (r1.score = r2.score → ¬dayLexLt r1.date r2.date)) (search_notes loc dir q ms)
    ∧ (ms ≤ 1 → (stripW q).isEmpty = false →
        ∀ f ∈ dir, globMd f.1 = true →
        ∀ d, parseDayKey loc (stemOf f.1) = some d →
        ∀ (i : Nat) (line : Chars), (splitNl (univNL f.2))[i]? = some line →
          (stripW line).isEmpty = false →
          containsSub (lowerL (stripW q)) (lowerL (stripW line)) = true →
          (⟨d, stemOf f.1, i + 1, stripW line, 1⟩ : SearchResult)
            ∈ search_notes loc dir q ms) := by
  have hsorted : List.Sorted searchLe (search_notes loc dir q ms) := by
    unfold search_notes
    by_cases hq : (stripW q).isEmpty
    · rw [if_pos hq]; exact List.sorted_nil
    · rw [if_neg hq]; exact List.sorted_insertionSort searchLe _
  have hper : ∀ r ∈ search_notes loc dir q ms,
      ms ≤ r.score
      ∧ (containsSub (lowerL (stripW q)) (lowerL r.line_content) = true → r.score = 1)
      ∧ (containsSub (lowerL (stripW q)) (lowerL r.line_content) = false →
          r.score = ratioQ (lowerL (stripW q)) (lowerL r.line_content) ∧ r.score < 1) := by
    intro r hr
    obtain ⟨hsc, hms, -⟩ := search_result_facts loc dir q ms r hr
    refine ⟨hms, ?_, ?_⟩
    · intro hsub
      rw [hsc]
      exact scoreOf_sub_eq_one hsub
    · intro hsub
      rw [hsc]
      exact scoreOf_fuzzy_lt_one hsub
  have hle1 : ∀ r ∈ search_notes loc dir q ms, r.score ≤ 1 := by
    intro r hr
    obtain ⟨hsc, -, -⟩ := search_result_facts loc dir q ms r hr
    rw [hsc]
    exact scoreOf_le_one _ _
  refine ⟨hsorted, hper, ?_, ?_⟩
  · refine List.Pairwise.imp_of_mem ?_ hsorted
    intro r1 r2 h1 h2 hle
    constructor
    · intro hsub2
      have hs2 : r2.score = 1 := (hper r2 h2).2.1 hsub2
      have hs1le : r1.score ≤ 1 := hle1 r1 h1
      have hs1 : r1.score = 1 := by
        rcases hle with hlt | ⟨heq, -⟩
        · rw [hs2] at hlt
          exact absurd hlt (not_lt.mpr hs1le)
        · rw [heq, hs2]
      cases hcs : containsSub (lowerL (stripW q)) (lowerL r1.line_content) with
      | true => rfl
      | false =>
        have := ((hper r1 h1).2.2 hcs).2
        rw [hs1] at this
        exact absurd this (lt_irrefl 1)
    · intro heq hlex
      rcases hle with hlt | ⟨-, hord⟩
      · rw [heq] at hlt
        exact lt_irrefl _ hlt
      · have hv1 : validDay r1.date := (search_result_facts loc dir q ms r1 h1).2.2
        have hv2 : validDay r2.date := (search_result_facts loc dir q ms r2 h2).2.2
        have := toOrdinal_lt_of_dayLexLt hv1 hv2 hlex
        omega
  · intro hms1 hq f hf hg d hp i line hline he hsub
    rw [mem_search_notes]
    refine ⟨hq, f, hf, ?_⟩
    rw [mem_searchFileRaw]
    refine ⟨d, hg, hp, i + 1, line, ?_, he, ?_, ?_⟩
    · rw [mem_enumFrom]
      exact ⟨by omega, by simpa using hline⟩
    · rw [scoreOf_sub_eq_one hsub]
      exact hms1
    · rw [scoreOf_sub_eq_one hsub]
  
/-- Witness for `C8_search_scoring`, exercising the substring-completeness
part at a concrete directory and query. -/
theorem C8_search_scoring_witness :
    (⟨⟨2025, 11, 21⟩, str "21-Nov-2025", 1, str "# hello world", 1⟩ : SearchResult)
      ∈ search_notes .c [(str "21-Nov-2025.md", str "# hello world\n\nHello")]
          (str "Hello") (mkRat 2 5) := by
  have h := (C8_search_scoring .c [(str "21-Nov-2025.md", str "# hello world\n\nHello")]
      (str "Hello") (mkRat 2 5)).2.2.2
  have h2 := h (by decide) (by decide)
      (str "21-Nov-2025.md", str "# hello world\n\nHello") (by decide) (by decide)
      ⟨2025, 11, 21⟩ (by decide) 0 (str "# hello world") (by decide) (by decide) (by decide)
  simpa using h2

/-- C5 (amended): `scan_notes` applies no day-key validation — every `.md`
file's tasks reach the scan result whether or not its stem parses — while
`search_notes` does skip files whose stem fails to parse, so every search
result's filename parses as a day key. -/
theorem C5_amended_scan_no_validation (loc : TimeLocale)
    (dir : List (Chars × Chars)) (q : Chars) (ms : ℚ) (f : Chars × Chars) :
    (f ∈ dir → globMd f.1 = true →
      ∀ t ∈ scanFile (stemOf f.1) (univNL f.2), t ∈ scan_notes dir)
    ∧ (∀ r ∈ search_notes loc dir q ms, (parseDayKey loc r.filename).isSome) := by
  constructor
  · intro hf hg t ht
    unfold scan_notes
    rw [List.mem_flatMap]
    refine ⟨f, ?_, ht⟩
    rw [(List.perm_insertionSort fileGe _).mem_iff, List.mem_filter]
    exact ⟨hf, hg⟩
  · intro r hr
    rw [mem_search_notes] at hr
    obtain ⟨-, g, -, hg⟩ := hr
    rw [mem_searchFileRaw] at hg
    obtain ⟨d, -, hp, n, line, -, -, -, hr'⟩ := hg
    subst hr'
    simp [hp]

/-- Witness for `C5_amended_scan_no_validation`: the task of `notes.md`
(unparseable stem) is in the scan result. -/
theorem C5_amended_scan_no_validation_witness :
    (⟨str "Task", str "notes", 0⟩ : TodoTask) ∈ scan_notes [(str "notes.md", str "## Task")] := by
  have h := (C5_amended_scan_no_validation .c [(str "notes.md", str "## Task")]
      (str "x") 1 (str "notes.md", str "## Task")).1
  exact h (by decide) (by decide) ⟨str "Task", str "notes", 0⟩ (by decide)

/-- C10: a task's `line_number` is the 0-based index of its line
(`enumerate(lines)`), a search result's `line_number` is the 1-based index
of its line (`enumerate(..., start=1)`): the two number the same file's
lines off by exactly one. -/
theorem C10_line_numbers (loc : TimeLocale) (stem content q : Chars) (ms : ℚ)
    (hg : globMd (stem ++ str ".md") = true)
    (hd : (parseDayKey loc stem).isSome)
    (hq : (stripW q).isEmpty = false) :
    (∀ t ∈ scanFile stem content,
        ∃ line, (splitNl content)[t.line]? = some line
          ∧ scanLine stem (t.line, line) = some t)
    ∧ (∀ (i : Nat) (line : Chars), (splitNl content)[i]? = some line →
        ∀ t, scanLine stem (i, line) = some t → t.line = i ∧ t ∈ scanFile stem content)
    ∧ (∀ r ∈ search_notes loc [(stem ++ str ".md", content)] q ms,
        ∃ i line, (splitNl (univNL content))[i]? = some line
          ∧ r.line_number = i + 1 ∧ r.line_content = stripW line)
    ∧ (∀ (i : Nat) (line : Chars), (splitNl (univNL content))[i]? = some line →
        (stripW line).isEmpty = false →
        ms ≤ scoreOf (lowerL (stripW q)) (stripW line) →
        ∃ r ∈ search_notes loc [(stem ++ str ".md", content)] q ms,
          r.line_number = i + 1) := by
  refine ⟨?_, ?_, ?_, ?_⟩
  · intro t ht
    simp only [scanFile, List.mem_filterMap] at ht
    obtain ⟨⟨j, line⟩, hmem, hsl⟩ := ht
    obtain ⟨-, -, -, -, ht'⟩ := (scanLine_eq_some_iff stem j line t).mp hsl
    have hj : t.line = j := by rw [← ht']
    rw [mem_enumFrom] at hmem
    refine ⟨line, ?_, ?_⟩
    · rw [hj]
      simpa using hmem.2
    · rw [hj]
      exact hsl
  · intro i line hget t hsl
    obtain ⟨-, -, -, -, ht'⟩ := (scanLine_eq_some_iff stem i line t).mp hsl
    refine ⟨by rw [← ht'], ?_⟩
    simp only [scanFile, List.mem_filterMap]
    exact ⟨(i, line), (mem_enumFrom line (splitNl content) 0 i).mpr
      ⟨Nat.zero_le i, by simpa using hget⟩, hsl⟩
  · intro r hr
    rw [mem_search_notes] at hr
    obtain ⟨-, f, hfmem, hfr⟩ := hr
    rw [List.mem_singleton] at hfmem
    subst hfmem
    rw [mem_searchFileRaw] at hfr
    obtain ⟨d, -, -, n, line, hmem, -, -, hr'⟩ := hfr
    rw [mem_enumFrom] at hmem
    obtain ⟨hn1, hget⟩ := hmem
    refine ⟨n - 1, line, hget, ?_, ?_⟩
    · subst hr'
      simp
      omega
    · subst hr'
      rfl
  · intro i line hget he hs
    obtain ⟨d, hpd⟩ := Option.isSome_iff_exists.mp hd
    refine ⟨⟨d, stemOf (stem ++ str ".md"), i + 1, stripW line,
        scoreOf (lowerL (stripW q)) (stripW line)⟩, ?_, rfl⟩
    rw [mem_search_notes]
    refine ⟨hq, (stem ++ str ".md", content), List.mem_singleton.mpr rfl, ?_⟩
    rw [mem_searchFileRaw]
    refine ⟨d, hg, ?_, i + 1, line, ?_, he, hs, rfl⟩
    · rw [stemOf_md stem (parseDayKey_ne_nil loc stem hd)]
      exact hpd
    · rw [mem_enumFrom]
      exact ⟨by omega, by simpa using hget⟩

/-- Witness for `C10_line_numbers`: in the file `21-Nov-2025.md` with
content `plain\n## Task`, the task on the second physical line is reported
at line 1 by the scan (0-based) and at line 2 by search (1-based). -/
theorem C10_line_numbers_witness :
    (∃ line, (splitNl (str "plain\n## Task"))[(1 : Nat)]? = some line
      ∧ scanLine (str "21-Nov-2025") (1, line)
          = some ⟨str "Task", str "21-Nov-2025", 1⟩)
    ∧ (∃ r ∈ search_notes .c [(str "21-Nov-2025.md", str "plain\n## Task")]
          (str "task") (mkRat 2 5), r.line_number = 1 + 1) := by
  have h := C10_line_numbers .c (str "21-Nov-2025") (str "plain\n## Task")
      (str "task") (mkRat 2 5) (by decide) (by decide) (by decide)
  refine ⟨?_, ?_⟩
  · exact h.1 ⟨str "Task", str "21-Nov-2025", 1⟩ (by decide)
  · exact h.2.2.2 1 (str "## Task") (by decide) (by decide) (by decide)
